import Mathlib

/-!
# Verification of the `tmpl` configuration-resolution and path-mapping engine

This development is a shallow embedding of the core of the `tmpl`
templating program: the YAML deep-merge (`utils.merge_yaml_data`), the
path-specification expander (`utils.parse_file_paths` with its
`LIST_REGEX`/`RANGE_REGEX` patterns), the path helpers
(`utils.get_path` and the `os.path` functions it relies on), the
recursive configuration loader (`config.parse`) and the mapping
computer (`config.compute_mapping`).

Python strings are modelled as `List Char`; Python dictionaries whose
keys are strings are modelled as association lists with Python's
insertion-order update semantics (updating an existing key keeps its
position, new keys are appended).  Filesystem effects are abstracted
as explicit function parameters: `os.path.exists`/`os.path.isfile`
become a `Str → Bool` parameter, globbing becomes a `Str → List Str`
parameter, and reading-plus-YAML-parsing a configuration file becomes
a `Str → Option Yaml` parameter.  Fallible Python code (functions
that may raise) returns `Except`.
-/

set_option autoImplicit false

namespace Tmpl

/-- A Python string, modelled as its list of characters. -/
abbrev Str := List Char

/-- YAML data as produced by `yaml.safe_load`: scalars, sequences and
string-keyed mappings.  Mappings are association lists in insertion
order, mirroring Python `dict` semantics. -/
inductive Yaml where
  | str (s : Str)
  | int (n : Int)
  | bool (b : Bool)
  | null
  | list (xs : List Yaml)
  | dict (entries : List (Str × Yaml))

/-- Python `k in d` on a string-keyed dict: is the key present? -/
def containsKey (entries : List (Str × Yaml)) (k : Str) : Bool :=
  entries.any (fun kv => kv.1 = k)

/-- Python `d[k]` read on a string-keyed dict (first — and in a real
dict, only — binding of the key). -/
def lookupEntry (entries : List (Str × Yaml)) (k : Str) : Option Yaml :=
  match entries with
  | [] => none
  | (k', v) :: rest => if k' = k then some v else lookupEntry rest k

/-- Python `d[k] = v` on a string-keyed dict: replace the binding in
place if the key exists (keeping its position), otherwise append. -/
def setEntry (entries : List (Str × Yaml)) (k : Str) (v : Yaml) :
    List (Str × Yaml) :=
  match entries with
  | [] => [(k, v)]
  | (k', v') :: rest =>
      if k' = k then (k', v) :: rest else (k', v') :: setEntry rest k v

mutual

/-- Embedding of `utils.merge_yaml_data` (`src/tmpl/utils.py`):
returns the recursively-merged version of both YAML data objects, the
second object having priority on conflicts.  Two strings: the second
wins.  Two sequences: concatenation (first, then second).  Two
mappings: a copy of the first, updated key-by-key from the second with
recursive merging on shared keys.  Anything else: the second wins. -/
def merge_yaml_data : Yaml → Yaml → Yaml
  | .str _, .str b => .str b
  | .list xs, .list ys => .list (xs ++ ys)
  | .dict e1, .dict e2 => .dict (mergeEntries e1 e2)
  | _, d2 => d2

/-- The `for key, val in data2.items()` loop inside
`utils.merge_yaml_data`, acting on the accumulating copy of the first
mapping's entries. -/
def mergeEntries (acc : List (Str × Yaml)) : List (Str × Yaml) →
    List (Str × Yaml)
  | [] => acc
  | (k, v) :: rest =>
      match lookupEntry acc k with
      | some old => mergeEntries (setEntry acc k (merge_yaml_data old v)) rest
      | none => mergeEntries (acc ++ [(k, v)]) rest

end

/-! ## The `os.path` model (POSIX flavour)

`utils.get_path`, `config.parse` and `config.compute_mapping` lean on
`os.path.join`, `os.path.normpath`, `os.path.relpath`,
`os.path.dirname`, `os.path.abspath`, `os.path.realpath` and
`os.path.expanduser`.  These CPython `posixpath` functions are
embedded below directly from their reference implementations, over
`Str`.  The process-wide inputs they consult (current working
directory, home directory) are explicit parameters.  `realpath` is
modelled as `abspath`: the model filesystem contains no symbolic
links. -/

/-- `path.startswith('/')`. -/
def isAbs (p : Str) : Bool := p.head? = some '/'

/-- `posixpath.join a b` (two-argument form): if `b` is absolute it
replaces `a`; if `a` is empty or ends in a slash they concatenate;
otherwise a slash is inserted. -/
def pyJoin (a b : Str) : Str :=
  if isAbs b then b
  else if a = [] then b
  else if a.getLast? = some '/' then a ++ b
  else a ++ '/' :: b

/-- Python `s.split(c)` for a single-character separator: splits at
every occurrence, keeping empty pieces (`"".split(c) == ['']`). -/
def splitOnChar (c : Char) : Str → List Str
  | [] => [[]]
  | d :: rest =>
      if d = c then [] :: splitOnChar c rest
      else
        match splitOnChar c rest with
        | [] => [[d]]
        | t :: ts => (d :: t) :: ts

/-- `'/'.join components`, the inverse direction of `splitOnChar '/'`. -/
def joinSlash : List Str → Str
  | [] => []
  | [c] => c
  | c :: d :: rest => c ++ '/' :: joinSlash (d :: rest)

/-- The number of initial slashes `posixpath.normpath` preserves:
two for a `//`-prefixed path that is not `///`-prefixed, one for any
other absolute path, zero otherwise. -/
def normSlashes (p : Str) : Nat :=
  if isAbs p then
    if p.take 2 = ['/', '/'] ∧ ¬ p.take 3 = ['/', '/', '/'] then 2 else 1
  else 0

/-- The component loop of `posixpath.normpath`: drop empty and `.`
components; a `..` is kept when the path is relative and nothing has
been accumulated, or when the accumulator already ends in `..`;
otherwise it pops the accumulator when possible. -/
def normComps (initialSlashes : Bool) (acc : List Str) :
    List Str → List Str
  | [] => acc
  | comp :: rest =>
      if comp = [] ∨ comp = ['.'] then normComps initialSlashes acc rest
      else if comp ≠ ['.', '.'] ∨ (¬ initialSlashes ∧ acc = []) ∨
          (acc ≠ [] ∧ acc.getLast? = some ['.', '.']) then
        normComps initialSlashes (acc ++ [comp]) rest
      else if acc ≠ [] then normComps initialSlashes acc.dropLast rest
      else normComps initialSlashes acc rest

/-- `posixpath.normpath`. -/
def normpath (p : Str) : Str :=
  if p = [] then ['.']
  else
    let ns := normSlashes p
    let comps := normComps (ns > 0) [] (splitOnChar '/' p)
    let r := List.replicate ns '/' ++ joinSlash comps
    if r = [] then ['.'] else r

/-- `p.rfind('/') + 1`: one past the index of the last slash, `0` when
there is none. -/
def rfindSlashP1 : Str → Nat
  | [] => 0
  | c :: rest =>
      let r := rfindSlashP1 rest
      if r > 0 then r + 1 else if c = '/' then 1 else 0

/-- `s.rstrip('/')`. -/
def rstripSlash (p : Str) : Str := (p.reverse.dropWhile (· = '/')).reverse

/-- `posixpath.dirname`: everything before the last slash, with
trailing slashes stripped unless the head is nothing but slashes. -/
def dirname (p : Str) : Str :=
  let i := rfindSlashP1 p
  let hd := p.take i
  if hd ≠ [] ∧ hd ≠ List.replicate hd.length '/' then rstripSlash hd else hd

/-- `posixpath.expanduser`, modelled with the home directory as an
explicit parameter.  Only bare-`~` expansion is modelled; the
`~user` password-database lookup is not (no code path under
verification passes a `~`-prefixed path). -/
def expanduser (home : Str) (p : Str) : Str :=
  if p.head? = some '~' then home ++ p.drop 1 else p

/-- `posixpath.abspath`, with the current working directory as an
explicit parameter. -/
def abspath (cwd p : Str) : Str :=
  if isAbs p then normpath p else normpath (pyJoin cwd p)

/-- `os.path.realpath`, modelled as `abspath`: the model filesystem
holds no symbolic links to resolve. -/
def realpath (cwd p : Str) : Str := abspath cwd p

/-- Length of the element-wise common prefix of two component lists
(`os.path.commonprefix` applied to two sequences). -/
def commonPrefixLen : List Str → List Str → Nat
  | x :: xs, y :: ys => if x = y then commonPrefixLen xs ys + 1 else 0
  | _, _ => 0

/-- `posixpath.relpath path start`, with the current working
directory explicit (used by `abspath` on relative inputs). -/
def relpath (cwd p start : Str) : Str :=
  let sl := (splitOnChar '/' (abspath cwd start)).filter (· ≠ [])
  let pl := (splitOnChar '/' (abspath cwd p)).filter (· ≠ [])
  let i := commonPrefixLen sl pl
  let rel := List.replicate (sl.length - i) ['.', '.'] ++ pl.drop i
  if rel = [] then ['.'] else joinSlash rel

/-! ## The path-specification expander (`utils.parse_file_paths`) -/

/-- Whether `pat` is a prefix of `s` (Python `s.startswith(pat)`). -/
def isPre : Str → Str → Bool
  | [], _ => true
  | _ :: _, [] => false
  | a :: as, b :: bs => a = b && isPre as bs

/-- Whether `pat` occurs inside `s` (Python `pat in s`). -/
def isSubstr (pat : Str) (s : Str) : Bool :=
  if isPre pat s then true
  else
    match s with
    | [] => false
    | _ :: rest => isSubstr pat rest

/-- The scan of Python `str.replace`, with explicit structural fuel:
each step consumes at least one character of `s`, so any
`fuel ≥ s.length` computes the full replacement. -/
def replaceAllAux (pat repl : Str) : Nat → Str → Str
  | 0, s => s
  | fuel + 1, s =>
    match pat with
    | [] => s
    | p :: ps =>
      match s with
      | [] => []
      | c :: rest =>
          if isPre (p :: ps) (c :: rest) then
            repl ++ replaceAllAux pat repl fuel ((c :: rest).drop (p :: ps).length)
          else c :: replaceAllAux pat repl fuel rest

/-- Python `str.replace` for a non-empty pattern: replaces every
non-overlapping occurrence, scanning left to right.  (The patterns
substituted by `parse_file_paths` always start with `[`, so the
empty-pattern corner of Python `replace` is irrelevant and this
definition simply returns `s` there.) -/
def replaceAll (s pat repl : Str) : Str :=
  replaceAllAux pat repl s.length s

/-- The `\w` character class of the spec-expansion regexes, modelled
as ASCII word characters `[A-Za-z0-9_]` (the regexes run on `str`, so
Python would additionally accept non-ASCII word characters; no claim
depends on those). -/
def wordChar (c : Char) : Bool :=
  (65 ≤ c.toNat && c.toNat ≤ 90) || (97 ≤ c.toNat && c.toNat ≤ 122) ||
  (48 ≤ c.toNat && c.toNat ≤ 57) || c = '_'

/-- The `\d` character class, modelled as the ASCII digits `0`-`9`. -/
def isDig (c : Char) : Bool := 48 ≤ c.toNat && c.toNat ≤ 57

/-- The character class `[/\w\.\-\ ]` used outside the brackets by
both `LIST_REGEX` and `RANGE_REGEX` (`src/tmpl/utils.py`). -/
def outerClass (c : Char) : Bool :=
  c = '/' || wordChar c || c = '.' || c = '-' || c = ' '

/-- The character class `[/\w\.\-\ ,]` used inside the brackets by
`LIST_REGEX`. -/
def innerListClass (c : Char) : Bool := outerClass c || c = ','

/-- Decimal digit to character, as in Python `str(i)` (applied only
to values below ten). -/
def digitChar : Nat → Char
  | 0 => '0' | 1 => '1' | 2 => '2' | 3 => '3' | 4 => '4'
  | 5 => '5' | 6 => '6' | 7 => '7' | 8 => '8' | _ => '9'

/-- Python `int` on a string of decimal digits. -/
def digitsToNat (ds : Str) : Nat :=
  ds.foldl (fun a c => 10 * a + (c.toNat - 48)) 0

/-- Decimal rendering with explicit structural fuel: each step
divides by ten, so any `fuel > n` renders `n` completely. -/
def natToCharsAux : Nat → Nat → Str
  | 0, _ => []
  | fuel + 1, n =>
      if n < 10 then [digitChar n]
      else natToCharsAux fuel (n / 10) ++ [digitChar (n % 10)]

/-- Python `str` on a natural number. -/
def natToChars (n : Nat) : Str := natToCharsAux (n + 1) n

/-- `RANGE_REGEX.match`, returning the text of the captured bracket
group together with the two captured integers.  The regex is
`^[/\w\.\-\ ]*(\[(\d+)\-(\d+)\])[/\w\.\-\ ]*$`; since its outer class
contains neither bracket, any match must place the group at the first
`[` of the string, so the anchored pattern is decided by this direct
scan: all characters before the first `[` lie in the outer class,
then one-or-more digits, a `-`, one-or-more digits and `]`, then
outer-class characters to the end. -/
def rangeMatch (s : Str) : Option (Str × Nat × Nat) :=
  let pre := s.takeWhile (· ≠ '[')
  if s.dropWhile (· ≠ '[') = [] then none
  else if ¬ pre.all outerClass then none
  else
    let rest := (s.dropWhile (· ≠ '[')).drop 1
    let d1 := rest.takeWhile isDig
    let r1 := rest.drop d1.length
    if d1 = [] then none
    else
      match r1 with
      | '-' :: r2 =>
          let d2 := r2.takeWhile isDig
          let r3 := r2.drop d2.length
          if d2 = [] then none
          else
            match r3 with
            | ']' :: suf =>
                if suf.all outerClass then
                  some ('[' :: d1 ++ '-' :: d2 ++ [']'],
                    digitsToNat d1, digitsToNat d2)
                else none
            | _ => none
      | _ => none

/-- `LIST_REGEX.match`, returning the captured bracket group and its
interior.  The regex is `^[/\w\.\-\ ]*(\[([/\w\.\-\ ,]+)\])[/\w\.\-\ ]*$`;
as with `rangeMatch`, the group must sit at the first `[`. -/
def listMatch (s : Str) : Option (Str × Str) :=
  let pre := s.takeWhile (· ≠ '[')
  if s.dropWhile (· ≠ '[') = [] then none
  else if ¬ pre.all outerClass then none
  else
    let rest := (s.dropWhile (· ≠ '[')).drop 1
    let inner := rest.takeWhile innerListClass
    let r1 := rest.drop inner.length
    if inner = [] then none
    else
      match r1 with
      | ']' :: suf =>
          if suf.all outerClass then some ('[' :: inner ++ [']'], inner)
          else none
      | _ => none

/-- Failure cases of `utils.parse_file_paths` (each Python `raise`
site becomes one constructor). -/
inductive PErr where
  /-- "path specification has its shoelaces crossed" -/
  | crossedShoelaces
  /-- "path specification does not contain a valid list expression" -/
  | invalidList
  /-- "path specification does not contain a valid range expression" -/
  | invalidRange
  /-- "upperbound in path specification range expression is not
  greater than the lowerbound" -/
  | rangeBound
  /-- "path specification does not specify a range or list expression" -/
  | noListOrRange
  /-- "path specification does not have balanced brackets" -/
  | unbalancedBrackets
deriving DecidableEq, Repr

/-- Embedding of `utils.parse_file_paths` (`src/tmpl/utils.py`): the
path-specification expander.  Literal specs pass through; specs with
`*` go to the filesystem glob, abstracted as the `globfn` parameter
(the `**`-recursive and plain variants both reduce to it, and the
restriction of recursive results to regular files is folded into
`globfn`); bracketed specs expand as comma lists or numeric ranges
after validation against the corresponding regex. -/
def parse_file_paths (globfn : Str → List Str) (path_spec : Str) :
    Except PErr (List Str) :=
  if ¬ path_spec.contains '*' ∧ ¬ path_spec.contains '[' ∧
      ¬ path_spec.contains ']' then
    .ok [path_spec]
  else if path_spec.contains '*' then
    .ok (globfn path_spec)
  else if path_spec.contains '[' ∧ path_spec.contains ']' then
    let guts0 := (path_spec.dropWhile (· ≠ '[')).drop 1
    if ¬ guts0.contains ']' then .error .crossedShoelaces
    else
      let guts := guts0.takeWhile (· ≠ ']')
      if guts.contains ',' then
        match listMatch path_spec with
        | none => .error .invalidList
        | some (expr, inner) =>
            .ok (((splitOnChar ',' inner).filter (· ≠ [])).map
              (fun p => replaceAll path_spec expr p))
      else if guts.contains '-' then
        match rangeMatch path_spec with
        | none => .error .invalidRange
        | some (expr, lb, ub) =>
            if ¬ ub > lb then .error .rangeBound
            else
              .ok ((List.range' lb (ub + 1 - lb)).map
                (fun i => replaceAll path_spec expr (natToChars i)))
      else .error .noListOrRange
  else .error .unbalancedBrackets

/-! ## `utils.get_path` and the configuration loader (`config.parse`) -/

/-- Ambient inputs of the path helpers: the `utils.TEMPLATE_DIR`
module global, the process working directory (consulted by
`os.path.abspath`/`realpath`), the home directory (consulted by
`os.path.expanduser`), the filesystem glob (the effectful part of
`utils.parse_file_paths`) and the existence test
(`os.path.exists`/`os.path.isfile`). -/
structure Ctx where
  template_dir : Str
  cwd : Str
  home : Str
  globfn : Str → List Str
  fexists : Str → Bool

/-- Embedding of `utils.get_path` (`src/tmpl/utils.py`): resolves a
path written in a template configuration file.  Absolute paths pass
through; `~`-paths are user-expanded; otherwise the path is joined to
`base_path` when one is given (absolutised when the base contains
`../`, normalised otherwise) and to the template directory when
not. -/
def get_path (ctx : Ctx) (template_path : Str) (base_path : Str) : Str :=
  if template_path.head? = some '/' then template_path
  else if template_path.head? = some '~' then expanduser ctx.home template_path
  else if base_path ≠ [] then
    if isSubstr "../".toList base_path then
      abspath ctx.cwd (pyJoin base_path template_path)
    else normpath (pyJoin base_path template_path)
  else normpath (pyJoin ctx.template_dir template_path)

/-- Failure cases of `config.parse` (each `raise` site becomes one
constructor). -/
inductive CErr where
  /-- the `os.path.isfile` check, the `open`, or `yaml.safe_load`
  failed for this path (the model filesystem maps a path directly to
  its parsed document, so the three collapse) -/
  | unreadable (path : Str)
  /-- the document is not a mapping -/
  | notDict (path : Str)
  /-- `include` is present but its value is not a list -/
  | includeNotList (path : Str)
  /-- expanding one of the `include` path specifications failed -/
  | includeExpand (path : Str)
  /-- model fuel exhausted (Python's recursion limit on cyclic
  includes) -/
  | recursionLimit
  /-- unreachable arm: the merged document stopped being a mapping -/
  | mergedNotDict
deriving DecidableEq, Repr

/-- One step of the include-flattening comprehension in
`config.parse`: an include entry must be a string (anything else
makes `get_path` raise inside the guarded comprehension) and is then
resolved relative to the including document's directory and
expanded. -/
def expandInclude (ctx : Ctx) (path path_dir : Str) (inc : Yaml) :
    Except CErr (List Str) :=
  match inc with
  | .str s =>
      (parse_file_paths ctx.globfn (get_path ctx s path_dir)).mapError
        (fun _ => CErr.includeExpand path)
  | _ => .error (.includeExpand path)

/-- The include loop of `config.parse`: parse each resolved include
path (`pf` is the recursive call, at one more level of depth) and
fold it into the accumulated document; the included document is the
second, conflict-winning argument of the merge. -/
def parseIncludes (pf : Str → Except CErr Yaml) :
    Yaml → List Str → Except CErr Yaml
  | acc, [] => .ok acc
  | acc, i :: rest =>
    match pf i with
    | .error e => .error e
    | .ok idata => parseIncludes pf (merge_yaml_data acc idata) rest

/-- Embedding of `config.parse` (`src/tmpl/config.py`): recursively
parses a template configuration file, iteratively merging all YAML
data.  The filesystem is the parameter `fs`, mapping a path to the
parsed document of the file there (`none` when the file is missing or
unparsable).  A document with no `include` key is returned as-is.
Otherwise each `include` entry is expanded (relative to the
containing document's directory), every resulting path is parsed
recursively and merged into the accumulating document — the included
data is passed as the second, conflict-winning argument of
`merge_yaml_data` — and finally the canonical source path is recorded
under `template_configuration_file`.  `fuel` bounds the recursion
depth, as Python's recursion limit does. -/
def parse (ctx : Ctx) (fs : Str → Option Yaml) :
    Nat → Str → Except CErr Yaml
  | 0, _ => .error .recursionLimit
  | fuel + 1, path =>
    match fs path with
    | none => .error (.unreadable path)
    | some (.dict entries) =>
      match lookupEntry entries "include".toList with
      | none => .ok (.dict entries)
      | some incVal =>
        match incVal with
        | .list incs =>
          let path_dir := dirname path
          match (incs.mapM (expandInclude ctx path path_dir)).map List.flatten with
          | .error e => .error e
          | .ok incPaths =>
            match parseIncludes (parse ctx fs fuel) (.dict entries) incPaths with
            | .error e => .error e
            | .ok (.dict merged) =>
                .ok (.dict (setEntry merged
                  "template_configuration_file".toList
                  (.str (realpath ctx.cwd path))))
            | .ok _ => .error .mergedNotDict
        | _ => .error (.includeNotList path)
    | some _ => .error (.notDict path)

/-! ## The mapping computer (`config.compute_mapping`) -/

/-- One entry of the `files` list, after `config.validate` has
checked it is a mapping with a `dst` key.  The optional keys model
Python's `'key' in spec` tests; values are strings (resp. a boolean
for `translate`), which is the shape every claim under verification
exercises. -/
structure FileSpec where
  dst : Str
  src : Option Str := none
  symlink : Option Str := none
  translate : Option Bool := none
  chmod : Option Str := none
  chown : Option Str := none

/-- One resolved path mapping, with the exact fields of the
dictionaries built by `config.compute_mapping`. -/
structure Mapping where
  chmod : Str
  chown : Str
  dst_key : Str
  full_dst : Str
  full_lnk : Str
  full_src : Str
  full_wrk : Str
  rel_dst : Str
  rel_lnk : Str
  rel_src : Str
  translate : Bool
deriving DecidableEq, Repr

/-- Failure cases of `config.compute_mapping` (each `raise` site, plus
the `UnboundLocalError` Python raises when the record build reads the
never-assigned `spec_full_lnk`). -/
inductive MErr where
  /-- expanding the source specification raised -/
  | srcExpand (dst_key : Str)
  /-- the source specification resolved to no paths -/
  | srcEmpty (dst_key : Str)
  /-- a resolved source path names no existing file -/
  | srcMissing (dst_key : Str) (p : Str)
  /-- expanding the destination specification raised -/
  | dstExpand (dst_key : Str)
  /-- the destination specification resolved to no paths -/
  | dstEmpty (dst_key : Str)
  /-- `dst` expanded to several paths while `src` is present -/
  | dstMultiple (dst_key : Str)
  /-- `symlink` given while the source expansion has several paths -/
  | symlinkCardinality (dst_key : Str)
  /-- `UnboundLocalError`: the record build read `spec_full_lnk`
  although no assignment to it was ever executed -/
  | unboundLocal
deriving DecidableEq, Repr

/-- The `for p in spec_full_srcs: if not os.path.exists(p): raise`
existence loop shared by both branches of `compute_mapping`. -/
def checkExists (fexists : Str → Bool) (dst_key : Str) :
    List Str → Except MErr Unit
  | [] => .ok ()
  | p :: rest =>
      if fexists p then checkExists fexists dst_key rest
      else .error (.srcMissing dst_key p)

/-- Python `zip` over the five per-path lists of the bare-`dst`
branch, building one mapping record per position. -/
def zipRecords (spec : FileSpec) (full_lnk rel_lnk : Str) :
    List Str → List Str → List Str → List Str → List Str → List Mapping
  | fd :: fds, fsrc :: fsrcs, fw :: fws, rd :: rds, rs :: rss =>
      { chmod := spec.chmod.getD [], chown := spec.chown.getD [],
        dst_key := spec.dst, full_dst := fd, full_lnk := full_lnk,
        full_src := fsrc, full_wrk := fw, rel_dst := rd,
        rel_lnk := rel_lnk, rel_src := rs,
        translate := spec.translate.getD true } ::
        zipRecords spec full_lnk rel_lnk fds fsrcs fws rds rss
  | _, _, _, _, _ => []

/-- The body of `compute_mapping`'s `for spec in conf['files']` loop
for one `FileSpec`.  `st` carries the current values of the Python
local variables `(spec_full_lnk, spec_rel_lnk)` — `none` while no
assignment to them has executed — because Python locals persist
across loop iterations and, in the `src` branch, the two assignments
sit after the `raise` statement and are unreachable, so the record
build can only see a value left over from an earlier iteration. -/
def computeSpec (ctx : Ctx) (output_dir working_dir : Str)
    (st : Option (Str × Str)) (spec : FileSpec) :
    Except MErr (List Mapping × Option (Str × Str)) :=
  match spec.src with
  | some src =>
    match parse_file_paths ctx.globfn (get_path ctx src []) with
    | .error _ => .error (.srcExpand spec.dst)
    | .ok full_srcs =>
      if full_srcs = [] then .error (.srcEmpty spec.dst)
      else
        let rel_srcs := full_srcs.map (fun p => relpath ctx.cwd p ctx.template_dir)
        match checkExists ctx.fexists spec.dst full_srcs with
        | .error e => .error e
        | .ok _ =>
          match parse_file_paths ctx.globfn (get_path ctx spec.dst output_dir) with
          | .error _ => .error (.dstExpand spec.dst)
          | .ok full_dsts =>
            if full_dsts = [] then .error (.dstEmpty spec.dst)
            else if full_dsts.length > 1 then .error (.dstMultiple spec.dst)
            else
              let full_dst := full_dsts.headD []
              let rel_dst := relpath ctx.cwd full_dst output_dir
              let full_wrk := pyJoin working_dir rel_dst
              match spec.symlink with
              | some _ =>
                if full_srcs.length > 1 then
                  .error (.symlinkCardinality spec.dst)
                else
                  match st with
                  | none => .error .unboundLocal
                  | some (full_lnk, rel_lnk) =>
                    .ok ((full_srcs.zip rel_srcs).map (fun fr =>
                      { chmod := spec.chmod.getD [],
                        chown := spec.chown.getD [],
                        dst_key := spec.dst, full_dst := full_dst,
                        full_lnk := full_lnk, full_src := fr.1,
                        full_wrk := full_wrk, rel_dst := rel_dst,
                        rel_lnk := rel_lnk, rel_src := fr.2,
                        translate := spec.translate.getD true }), st)
              | none =>
                .ok ((full_srcs.zip rel_srcs).map (fun fr =>
                  { chmod := spec.chmod.getD [],
                    chown := spec.chown.getD [],
                    dst_key := spec.dst, full_dst := full_dst,
                    full_lnk := [], full_src := fr.1,
                    full_wrk := full_wrk, rel_dst := rel_dst,
                    rel_lnk := [], rel_src := fr.2,
                    translate := spec.translate.getD true }),
                  some ([], []))
  | none =>
    match parse_file_paths ctx.globfn (get_path ctx spec.dst []) with
    | .error _ => .error (.srcExpand spec.dst)
    | .ok full_srcs =>
      if full_srcs = [] then .error (.srcEmpty spec.dst)
      else
        let rel_srcs := full_srcs.map (fun p => relpath ctx.cwd p ctx.template_dir)
        match checkExists ctx.fexists spec.dst full_srcs with
        | .error e => .error e
        | .ok _ =>
          let rel_dsts := rel_srcs
          let full_dsts := rel_dsts.map (fun p => pyJoin output_dir p)
          let full_wrks := rel_dsts.map (fun p => pyJoin working_dir p)
          match spec.symlink with
          | some lnk =>
            if full_srcs.length > 1 then .error (.symlinkCardinality spec.dst)
            else
              let full_lnk := get_path ctx lnk output_dir
              let rel_lnk := relpath ctx.cwd full_lnk output_dir
              .ok (zipRecords spec full_lnk rel_lnk
                  full_dsts full_srcs full_wrks rel_dsts rel_srcs,
                some (full_lnk, rel_lnk))
          | none =>
            .ok (zipRecords spec [] []
                full_dsts full_srcs full_wrks rel_dsts rel_srcs,
              some ([], []))

/-- The `for spec in conf['files']` loop of `compute_mapping`,
threading the accumulated mapping list and the symlink locals. -/
def computeLoop (ctx : Ctx) (output_dir working_dir : Str)
    (acc : List Mapping) (st : Option (Str × Str)) :
    List FileSpec → Except MErr (List Mapping)
  | [] => .ok acc
  | spec :: rest =>
    match computeSpec ctx output_dir working_dir st spec with
    | .error e => .error e
    | .ok (recs, st') => computeLoop ctx output_dir working_dir (acc ++ recs) st' rest

/-- Embedding of `config.compute_mapping` (`src/tmpl/config.py`):
computes the file mappings and symlinks between template and output
files.  `files` is the (validated) `files` list of the configuration
document. -/
def compute_mapping (ctx : Ctx) (files : List FileSpec)
    (output_dir working_dir : Str) : Except MErr (List Mapping) :=
  computeLoop ctx output_dir working_dir [] none files

/-! ## Component-level path lemmas

The claims about `compute_mapping` quantify over paths given by their
slash-separated components.  `GoodComp` captures a well-formed path
component (non-empty, slash-free, not a dot component); `joinSlash`
renders a relative path from components and `absOf` an absolute
one. -/

/-- An absolute path with the given components. -/
def absOf (cs : List Str) : Str := '/' :: joinSlash cs

/-- A well-formed path component: non-empty, slash-free, and not one
of the special `.`/`..` components. -/
def GoodComp (c : Str) : Prop :=
  c ≠ [] ∧ '/' ∉ c ∧ c ≠ ['.'] ∧ c ≠ ['.', '.']

instance (c : Str) : Decidable (GoodComp c) := by
  unfold GoodComp; infer_instance

theorem joinSlash_cons (c : Str) (rest : List Str) :
    joinSlash (c :: rest) =
      c ++ (if rest = [] then [] else '/' :: joinSlash rest) := by
  cases rest with
  | nil => simp [joinSlash]
  | cons d ds => simp [joinSlash]

theorem joinSlash_append (xs ys : List Str) (hx : xs ≠ []) (hy : ys ≠ []) :
    joinSlash (xs ++ ys) = joinSlash xs ++ '/' :: joinSlash ys := by
  induction xs with
  | nil => exact absurd rfl hx
  | cons c rest ih =>
      cases rest with
      | nil =>
          cases ys with
          | nil => exact absurd rfl hy
          | cons y yrest => simp [joinSlash]
      | cons d ds =>
          have h1 : joinSlash ((c :: d :: ds) ++ ys) =
              c ++ '/' :: joinSlash ((d :: ds) ++ ys) := rfl
          have h2 : joinSlash (c :: d :: ds) =
              c ++ '/' :: joinSlash (d :: ds) := rfl
          rw [h1, ih (by simp), h2]
          simp

theorem head?_joinSlash_cons (c : Str) (rest : List Str) (hc : c ≠ []) :
    (joinSlash (c :: rest)).head? = c.head? := by
  rw [joinSlash_cons]
  cases c with
  | nil => exact absurd rfl hc
  | cons a as => simp

theorem mem_joinSlash {a : Char} {cs : List Str} (h : a ∈ joinSlash cs) :
    a = '/' ∨ ∃ c ∈ cs, a ∈ c := by
  induction cs with
  | nil => simp [joinSlash] at h
  | cons c rest ih =>
      rw [joinSlash_cons] at h
      rcases List.mem_append.mp h with hc | ht
      · exact Or.inr ⟨c, by simp, hc⟩
      · by_cases hr : rest = []
        · subst hr; simp at ht
        · rw [if_neg hr] at ht
          rcases List.mem_cons.mp ht with rfl | ht'
          · exact Or.inl rfl
          · rcases ih ht' with h' | ⟨c', hc', ha⟩
            · exact Or.inl h'
            · exact Or.inr ⟨c', by simp [hc'], ha⟩

theorem joinSlash_ne_nil (c : Str) (rest : List Str) (hc : c ≠ []) :
    joinSlash (c :: rest) ≠ [] := by
  rw [joinSlash_cons]
  cases c with
  | nil => exact absurd rfl hc
  | cons a as => simp

theorem getLast?_joinSlash_ne_slash (cs : List Str)
    (h : ∀ c ∈ cs, c ≠ [] ∧ '/' ∉ c) (hne : cs ≠ []) :
    (joinSlash cs).getLast? ≠ some '/' := by
  induction cs with
  | nil => exact absurd rfl hne
  | cons c rest ih =>
      cases rest with
      | nil =>
          intro hl
          have hl' : '/' ∈ (joinSlash [c]).getLast? := Option.mem_def.mpr hl
          obtain ⟨hne', heq⟩ := List.mem_getLast?_eq_getLast hl'
          have hmem : '/' ∈ joinSlash [c] := heq ▸ List.getLast_mem hne'
          exact (h c (by simp)).2 (by simpa [joinSlash] using hmem)
      | cons d ds =>
          have h2 : joinSlash (c :: d :: ds) =
              c ++ '/' :: joinSlash (d :: ds) := rfl
          rw [h2, List.getLast?_append_cons]
          have hspec := ih (fun x hx => h x (by simp [hx])) (by simp)
          cases hj : joinSlash (d :: ds) with
          | nil => exact absurd hj (joinSlash_ne_nil d ds (h d (by simp)).1)
          | cons x xs =>
              rw [List.getLast?_cons_cons]
              rw [hj] at hspec
              exact hspec

/-- `splitOnChar` on a separator-free string yields that string as
the single piece. -/
theorem splitOnChar_of_not_mem (sep : Char) (s : Str) (h : sep ∉ s) :
    splitOnChar sep s = [s] := by
  induction s with
  | nil => rfl
  | cons d rest ih =>
      have hd : d ≠ sep := fun hEq => h (hEq ▸ List.mem_cons_self d rest)
      rw [splitOnChar, if_neg hd, ih (fun hm => h (List.mem_cons_of_mem d hm))]

theorem splitOnChar_append_sep (sep : Char) (c t : Str) (hc : sep ∉ c) :
    splitOnChar sep (c ++ sep :: t) = c :: splitOnChar sep t := by
  induction c with
  | nil => simp [splitOnChar]
  | cons a c' ih =>
      have ha : a ≠ sep := fun hEq => hc (hEq ▸ List.mem_cons_self a c')
      rw [List.cons_append, splitOnChar, if_neg ha,
        ih (fun hm => hc (List.mem_cons_of_mem a hm))]

/-- `splitOnChar '/'` un-does `joinSlash` for slash-free components. -/
theorem splitOnChar_joinSlash (cs : List Str) (hne : cs ≠ [])
    (h : ∀ c ∈ cs, '/' ∉ c) :
    splitOnChar '/' (joinSlash cs) = cs := by
  induction cs with
  | nil => exact absurd rfl hne
  | cons c rest ih =>
      cases rest with
      | nil => exact splitOnChar_of_not_mem '/' c (h c (by simp))
      | cons d ds =>
          rw [joinSlash_cons, if_neg (by simp : ¬ (d :: ds) = []),
            splitOnChar_append_sep '/' c _ (h c (by simp)),
            ih (by simp) (fun x hx => h x (by simp [hx]))]

/-- The component loop of `normpath` appends well-formed components
unchanged. -/
theorem normComps_good (b : Bool) (acc : List Str) (cs : List Str)
    (h : ∀ c ∈ cs, GoodComp c) :
    normComps b acc cs = acc ++ cs := by
  induction cs generalizing acc with
  | nil => simp [normComps]
  | cons c rest ih =>
      obtain ⟨h1, _, h3, h4⟩ := h c (by simp)
      rw [normComps, if_neg (by simp [h1, h3]), if_pos (Or.inl h4),
        ih (acc ++ [c]) (fun x hx => h x (by simp [hx]))]
      simp

/-- `normpath` is the identity on an absolute path made of
well-formed components. -/
theorem normpath_absOf (cs : List Str) (h : ∀ c ∈ cs, GoodComp c) :
    normpath (absOf cs) = absOf cs := by
  cases cs with
  | nil => rfl
  | cons c0 r0 =>
      have hgood : ∀ c ∈ c0 :: r0, GoodComp c := h
      have hc0 := hgood c0 (by simp)
      have hh : (joinSlash (c0 :: r0)).head? = c0.head? :=
        head?_joinSlash_cons c0 r0 hc0.1
      have htake2 : (absOf (c0 :: r0)).take 2 ≠ ['/', '/'] := by
        intro h2
        rw [absOf] at h2
        cases hj : joinSlash (c0 :: r0) with
        | nil => rw [hj] at h2; simp at h2
        | cons x xs =>
            rw [hj] at h2 hh
            have hx : x = '/' := by simpa using h2
            cases hcc : c0 with
            | nil => exact hc0.1 hcc
            | cons y ys =>
                rw [hcc] at hh
                have hy : x = y := by simpa using hh
                exact hc0.2.1 (by
                  rw [hcc, ← hy, hx]
                  exact List.mem_cons_self '/' ys)
      have hns : normSlashes (absOf (c0 :: r0)) = 1 := by
        rw [normSlashes, if_pos (by simp [isAbs, absOf]),
          if_neg (by rintro ⟨h2, _⟩; exact htake2 h2)]
      have hsplit : splitOnChar '/' (absOf (c0 :: r0)) = [] :: c0 :: r0 := by
        rw [absOf, splitOnChar]
        rw [if_pos rfl,
          splitOnChar_joinSlash (c0 :: r0) (by simp)
            (fun c hc => (hgood c hc).2.1)]
      have hcomps : normComps true [] ([] :: c0 :: r0) = c0 :: r0 := by
        rw [normComps, if_pos (Or.inl rfl),
          normComps_good true [] (c0 :: r0) hgood]
        simp
      rw [normpath, if_neg (by simp [absOf])]
      simp only [hns, hsplit]
      have hb : (decide ((1 : Nat) > 0)) = true := rfl
      rw [hb, hcomps]
      simp [absOf]

theorem contains_iff (s : Str) (a : Char) : s.contains a = true ↔ a ∈ s := by
  simp [List.contains, List.elem_iff]

theorem head?_joinSlash_ne_slash (dcs : List Str)
    (hd : ∀ c ∈ dcs, c ≠ [] ∧ '/' ∉ c) (hdne : dcs ≠ []) :
    (joinSlash dcs).head? ≠ some '/' := by
  cases dcs with
  | nil => exact absurd rfl hdne
  | cons d ds =>
      rw [head?_joinSlash_cons d ds (hd d (by simp)).1]
      cases hdd : d with
      | nil => exact absurd hdd (hd d (by simp)).1
      | cons a as =>
          simp only [List.head?_cons, ne_eq, Option.some.injEq]
          intro ha
          exact (hd d (by simp)).2 (by rw [hdd, ha]; exact List.mem_cons_self '/' as)

/-- Joining an absolute template root onto a relative path, at the
component level. -/
theorem pyJoin_absOf (tcs dcs : List Str)
    (ht : ∀ c ∈ tcs, c ≠ [] ∧ '/' ∉ c)
    (hd : ∀ c ∈ dcs, c ≠ [] ∧ '/' ∉ c) (hdne : dcs ≠ []) :
    pyJoin (absOf tcs) (joinSlash dcs) = absOf (tcs ++ dcs) := by
  have hnabs : isAbs (joinSlash dcs) = false := by
    simp only [isAbs, decide_eq_false_iff_not]
    exact head?_joinSlash_ne_slash dcs hd hdne
  cases tcs with
  | nil =>
      rw [pyJoin, if_neg (by simp [hnabs]), if_neg (by simp [absOf]),
        if_pos (by rfl)]
      rfl
  | cons t ts =>
      have hjoin := joinSlash_ne_nil t ts (ht t (by simp)).1
      have hlast : (absOf (t :: ts)).getLast? ≠ some '/' := by
        rw [absOf]
        cases hj : joinSlash (t :: ts) with
        | nil => exact absurd hj hjoin
        | cons x xs =>
            rw [List.getLast?_cons_cons]
            have h5 := getLast?_joinSlash_ne_slash (t :: ts) ht (by simp)
            rw [hj] at h5
            exact h5
      rw [pyJoin, if_neg (by simp [hnabs]), if_neg (by simp [absOf]),
        if_neg hlast, absOf, absOf,
        joinSlash_append (t :: ts) dcs (by simp) hdne]
      rfl

/-- Splitting an absolute path back into its non-empty components. -/
theorem splitFilter_absOf (cs : List Str) (h : ∀ c ∈ cs, GoodComp c) :
    (splitOnChar '/' (absOf cs)).filter (fun c => c ≠ []) = cs := by
  cases cs with
  | nil => rfl
  | cons c rest =>
      rw [absOf, splitOnChar, if_pos rfl,
        splitOnChar_joinSlash (c :: rest) (by simp)
          (fun x hx => (h x hx).2.1)]
      rw [List.filter_cons, if_neg (by simp)]
      exact List.filter_eq_self.mpr (fun a ha => by simp [(h a ha).1])

theorem commonPrefixLen_append (xs ys : List Str) :
    commonPrefixLen xs (xs ++ ys) = xs.length := by
  induction xs with
  | nil => rfl
  | cons x xs ih =>
      rw [List.cons_append, commonPrefixLen, if_pos rfl, ih]
      rfl

/-- `relpath` of an absolute path against an absolute ancestor, at
the component level. -/
theorem relpath_absOf (cwd : Str) (tcs dcs : List Str)
    (ht : ∀ c ∈ tcs, GoodComp c) (hd : ∀ c ∈ dcs, GoodComp c)
    (hdne : dcs ≠ []) :
    relpath cwd (absOf (tcs ++ dcs)) (absOf tcs) = joinSlash dcs := by
  have hall : ∀ c ∈ tcs ++ dcs, GoodComp c := by
    intro c hc
    rcases List.mem_append.mp hc with h | h
    exacts [ht c h, hd c h]
  have hab1 : abspath cwd (absOf tcs) = absOf tcs := by
    rw [abspath, if_pos (by simp [isAbs, absOf])]
    exact normpath_absOf tcs ht
  have hab2 : abspath cwd (absOf (tcs ++ dcs)) = absOf (tcs ++ dcs) := by
    rw [abspath, if_pos (by simp [isAbs, absOf])]
    exact normpath_absOf (tcs ++ dcs) hall
  rw [relpath, hab1, hab2, splitFilter_absOf tcs ht,
    splitFilter_absOf (tcs ++ dcs) hall, commonPrefixLen_append,
    Nat.sub_self, List.replicate_zero, List.drop_left, List.nil_append,
    if_neg hdne]

/-- `parse_file_paths` on a spec without `*`, `[` or `]` is the
literal singleton. -/
theorem parse_file_paths_literal (g : Str → List Str) (s : Str)
    (h1 : '*' ∉ s) (h2 : '[' ∉ s) (h3 : ']' ∉ s) :
    parse_file_paths g s = .ok [s] := by
  rw [parse_file_paths,
    if_pos ⟨fun hc => h1 ((contains_iff s '*').mp hc),
      fun hc => h2 ((contains_iff s '[').mp hc),
      fun hc => h3 ((contains_iff s ']').mp hc)⟩]

/-- A character different from `/` and absent from every component is
absent from the joined absolute path. -/
theorem not_mem_absOf (a : Char) (cs : List Str) (ha : a ≠ '/')
    (h : ∀ c ∈ cs, a ∉ c) : a ∉ absOf cs := by
  intro hmem
  rcases List.mem_cons.mp hmem with h1 | h1
  · exact ha h1
  · rcases mem_joinSlash h1 with h2 | ⟨c, hc, h3⟩
    · exact ha h2
    · exact h c hc h3

/-- `get_path` on a relative, non-`~` path with no base resolves
against the template directory. -/
theorem get_path_relative (ctx : Ctx) (dcs : List Str)
    (hd : ∀ c ∈ dcs, GoodComp c) (hdne : dcs ≠ [])
    (htilde : (joinSlash dcs).head? ≠ some '~') :
    get_path ctx (joinSlash dcs) [] =
      normpath (pyJoin ctx.template_dir (joinSlash dcs)) := by
  have hslash : (joinSlash dcs).head? ≠ some '/' :=
    head?_joinSlash_ne_slash dcs (fun c hc => ⟨(hd c hc).1, (hd c hc).2.1⟩) hdne
  rw [get_path, if_neg hslash, if_neg htilde, if_neg (by simp)]

/-! ## Lemmas about digits, the regex character classes, and the
range expander -/

theorem isDig_digitChar (d : Nat) : isDig (digitChar d) = true := by
  unfold digitChar
  split <;> rfl

theorem toNat_digitChar (d : Nat) (h : d < 10) :
    (digitChar d).toNat - 48 = d := by
  interval_cases d <;> rfl

theorem natToCharsAux_isDig (fuel : Nat) :
    ∀ (n : Nat), ∀ c ∈ natToCharsAux fuel n, isDig c = true := by
  induction fuel with
  | zero => intro n c hc; simp [natToCharsAux] at hc
  | succ f ih =>
      intro n c hc
      rw [natToCharsAux] at hc
      by_cases h : n < 10
      · rw [if_pos h] at hc
        simp at hc
        subst hc
        exact isDig_digitChar n
      · rw [if_neg h] at hc
        rcases List.mem_append.mp hc with h1 | h1
        · exact ih (n / 10) c h1
        · simp at h1
          subst h1
          exact isDig_digitChar (n % 10)

theorem natToChars_isDig (n : Nat) : ∀ c ∈ natToChars n, isDig c = true :=
  natToCharsAux_isDig (n + 1) n

theorem natToChars_ne_nil (n : Nat) : natToChars n ≠ [] := by
  rw [natToChars, natToCharsAux]
  by_cases h : n < 10 <;> simp [h]

theorem digitsToNat_append_digit (a : Str) (c : Char) :
    digitsToNat (a ++ [c]) = 10 * digitsToNat a + (c.toNat - 48) := by
  simp [digitsToNat, List.foldl_append]

theorem digitsToNat_natToCharsAux (fuel : Nat) :
    ∀ (n : Nat), n < fuel → digitsToNat (natToCharsAux fuel n) = n := by
  induction fuel with
  | zero => intro n h; omega
  | succ f ih =>
      intro n h
      rw [natToCharsAux]
      by_cases h10 : n < 10
      · rw [if_pos h10]
        have : digitsToNat [digitChar n] = (digitChar n).toNat - 48 := by
          simp [digitsToNat]
        rw [this, toNat_digitChar n h10]
      · rw [if_neg h10, digitsToNat_append_digit]
        have hdiv : n / 10 < n := Nat.div_lt_self (by omega) (by omega)
        rw [ih (n / 10) (by omega),
          toNat_digitChar (n % 10) (Nat.mod_lt n (by omega))]
        omega

theorem digitsToNat_natToChars (n : Nat) : digitsToNat (natToChars n) = n :=
  digitsToNat_natToCharsAux (n + 1) n (by omega)

/-- An ASCII digit lies in the regex word class, hence in the outer
class of both expansion regexes. -/
theorem outerClass_of_isDig (c : Char) (h : isDig c = true) :
    outerClass c = true := by
  simp only [isDig, Bool.and_eq_true, decide_eq_true_eq] at h
  simp [outerClass, wordChar, h.1, h.2]

/-- Membership in the outer class rules out any concrete character
outside it (such as `[`, `]`, `*` or `,`). -/
theorem outerClass_ne (c : Char) (h : outerClass c = true) (d : Char)
    (hd : outerClass d = false) : c ≠ d := by
  intro he
  rw [he, hd] at h
  cases h

/-- An ASCII digit differs from any concrete non-digit character. -/
theorem isDig_ne (c : Char) (h : isDig c = true) (d : Char)
    (hd : isDig d = false) : c ≠ d := by
  intro he
  rw [he, hd] at h
  cases h

theorem takeWhile_append_stop (p : Char → Bool) (a : Str) (b : Char)
    (t : Str) (ha : ∀ c ∈ a, p c = true) (hb : p b = false) :
    (a ++ b :: t).takeWhile p = a := by
  induction a with
  | nil => simp [List.takeWhile_cons, hb]
  | cons x xs ih =>
      rw [List.cons_append, List.takeWhile_cons,
        ha x (List.mem_cons_self x xs)]
      rw [ih (fun c hc => ha c (List.mem_cons_of_mem x hc))]
      simp

theorem dropWhile_append_stop (p : Char → Bool) (a : Str) (b : Char)
    (t : Str) (ha : ∀ c ∈ a, p c = true) (hb : p b = false) :
    (a ++ b :: t).dropWhile p = b :: t := by
  induction a with
  | nil => simp [List.dropWhile_cons, hb]
  | cons x xs ih =>
      rw [List.cons_append, List.dropWhile_cons,
        ha x (List.mem_cons_self x xs)]
      simp only [if_true]
      exact ih (fun c hc => ha c (List.mem_cons_of_mem x hc))

theorem isPre_head_ne (p : Char) (ps : Str) (c : Char) (rest : Str)
    (h : p ≠ c) : isPre (p :: ps) (c :: rest) = false := by
  simp [isPre, h]

theorem isPre_append (a t : Str) : isPre a (a ++ t) = true := by
  induction a with
  | nil => rfl
  | cons x xs ih => simp [isPre, ih]

/-- The replacement scan leaves a string without the pattern's
leading `[` untouched. -/
theorem replaceAllAux_no_occ (pr repl : Str) (fuel : Nat) :
    ∀ (s : Str), '[' ∉ s → replaceAllAux ('[' :: pr) repl fuel s = s := by
  induction fuel with
  | zero => intro s _; rfl
  | succ f ih =>
      intro s hs
      cases s with
      | nil => rfl
      | cons c rest =>
          have hc : '[' ≠ c := fun he => hs (he ▸ List.mem_cons_self c rest)
          show (if isPre ('[' :: pr) (c :: rest)
              then repl ++ replaceAllAux ('[' :: pr) repl f
                ((c :: rest).drop ('[' :: pr).length)
              else c :: replaceAllAux ('[' :: pr) repl f rest) = c :: rest
          rw [isPre_head_ne '[' pr c rest hc]
          simp only [Bool.false_eq_true, if_false]
          rw [ih rest (fun hm => hs (List.mem_cons_of_mem c hm))]

theorem replaceAllAux_single (pr repl : Str) :
    ∀ (pre : Str) (suf : Str) (fuel : Nat), '[' ∉ pre → '[' ∉ suf →
    (pre ++ ('[' :: pr) ++ suf).length ≤ fuel →
    replaceAllAux ('[' :: pr) repl fuel (pre ++ ('[' :: pr) ++ suf) =
      pre ++ repl ++ suf := by
  intro pre
  induction pre with
  | nil =>
      intro suf fuel _ hsuf hfuel
      cases fuel with
      | zero => simp at hfuel
      | succ f =>
          show (if isPre ('[' :: pr) (('[' :: pr) ++ suf)
              then repl ++ replaceAllAux ('[' :: pr) repl f
                ((('[' :: pr) ++ suf).drop ('[' :: pr).length)
              else '[' :: replaceAllAux ('[' :: pr) repl f (pr ++ suf)) =
            repl ++ suf
          rw [isPre_append ('[' :: pr) suf]
          simp only [if_true, List.drop_left]
          rw [replaceAllAux_no_occ pr repl f suf hsuf]
  | cons x xs ih =>
      intro suf fuel hpre hsuf hfuel
      cases fuel with
      | zero => simp at hfuel
      | succ f =>
          have hx : '[' ≠ x := fun he =>
            hpre (he ▸ List.mem_cons_self x xs)
          show (if isPre ('[' :: pr) (x :: (xs ++ ('[' :: pr) ++ suf))
              then repl ++ replaceAllAux ('[' :: pr) repl f
                ((x :: (xs ++ ('[' :: pr) ++ suf)).drop ('[' :: pr).length)
              else x :: replaceAllAux ('[' :: pr) repl f
                (xs ++ ('[' :: pr) ++ suf)) =
            (x :: xs) ++ repl ++ suf
          rw [isPre_head_ne '[' pr x _ hx]
          simp only [Bool.false_eq_true, if_false]
          rw [ih suf f (fun hm => hpre (List.mem_cons_of_mem x hm)) hsuf
            (by simp at hfuel ⊢; omega)]
          simp

/-- Python `replace` on `pre ++ pat ++ suf` for a `[`-headed pattern
occurring nowhere else substitutes exactly that occurrence. -/
theorem replaceAll_single (pr repl pre suf : Str) (hpre : '[' ∉ pre)
    (hsuf : '[' ∉ suf) :
    replaceAll (pre ++ ('[' :: pr) ++ suf) ('[' :: pr) repl =
      pre ++ repl ++ suf :=
  replaceAllAux_single pr repl pre suf _ hpre hsuf (Nat.le_refl _)

/-- A range path specification `prefix[N-M]suffix`, assembled from
its prefix, bounds and suffix. -/
def rangeSpec (pre suf : Str) (N M : Nat) : Str :=
  pre ++ '[' :: (natToChars N ++ '-' :: (natToChars M ++ ']' :: suf))

/-- The bracket group `[N-M]` that `RANGE_REGEX` captures in a range
specification. -/
def rangeExpr (N M : Nat) : Str :=
  '[' :: (natToChars N ++ '-' :: (natToChars M ++ [']']))

/-- `RANGE_REGEX` matches a well-formed range specification, capturing
the bracket group and both bounds. -/
theorem rangeMatch_rangeSpec (pre suf : Str) (N M : Nat)
    (hpre : ∀ c ∈ pre, outerClass c = true)
    (hsuf : ∀ c ∈ suf, outerClass c = true) :
    rangeMatch (rangeSpec pre suf N M) = some (rangeExpr N M, N, M) := by
  have hpreB : ∀ c ∈ pre, (fun c => decide (c ≠ '[')) c = true := fun c hc => by
    simp only [decide_eq_true_eq]
    exact outerClass_ne c (hpre c hc) '[' rfl
  have htw : (rangeSpec pre suf N M).takeWhile (fun c => c ≠ '[') = pre :=
    takeWhile_append_stop _ pre '[' _ hpreB (by simp)
  have hdw : (rangeSpec pre suf N M).dropWhile (fun c => c ≠ '[') =
      '[' :: (natToChars N ++ '-' :: (natToChars M ++ ']' :: suf)) :=
    dropWhile_append_stop _ pre '[' _ hpreB (by simp)
  have hd1 : (natToChars N ++ '-' :: (natToChars M ++ ']' :: suf)).takeWhile
      isDig = natToChars N :=
    takeWhile_append_stop isDig (natToChars N) '-' _ (natToChars_isDig N) rfl
  have hd2 : (natToChars M ++ ']' :: suf).takeWhile isDig = natToChars M :=
    takeWhile_append_stop isDig (natToChars M) ']' _ (natToChars_isDig M) rfl
  rw [rangeMatch, htw, hdw]
  rw [if_neg (List.cons_ne_nil '[' _),
    if_neg (not_not_intro (List.all_eq_true.mpr hpre))]
  simp only [List.drop_one, List.tail_cons, hd1, List.drop_left]
  rw [if_neg (natToChars_ne_nil N)]
  simp only [hd2, List.drop_left]
  rw [if_neg (natToChars_ne_nil M),
    if_pos (List.all_eq_true.mpr hsuf),
    digitsToNat_natToChars, digitsToNat_natToChars]
  simp [rangeExpr]

theorem rangeSpec_assoc (pre suf : Str) (N M : Nat) :
    rangeSpec pre suf N M = pre ++ rangeExpr N M ++ suf := by
  simp [rangeSpec, rangeExpr]

theorem mem_rangeSpec (a : Char) (pre suf : Str) (N M : Nat) :
    a ∈ rangeSpec pre suf N M ↔
      a ∈ pre ∨ a = '[' ∨ a ∈ natToChars N ∨ a = '-' ∨ a ∈ natToChars M ∨
      a = ']' ∨ a ∈ suf := by
  simp [rangeSpec, List.mem_append, List.mem_cons]

theorem not_mem_rangeSpec_star (pre suf : Str) (N M : Nat)
    (hpre : ∀ c ∈ pre, outerClass c = true)
    (hsuf : ∀ c ∈ suf, outerClass c = true) :
    '*' ∉ rangeSpec pre suf N M := by
  intro h
  rcases (mem_rangeSpec '*' pre suf N M).mp h with h | h | h | h | h | h | h
  · exact absurd (hpre '*' h) (by decide)
  · exact absurd h (by decide)
  · exact absurd (natToChars_isDig N '*' h) (by decide)
  · exact absurd h (by decide)
  · exact absurd (natToChars_isDig M '*' h) (by decide)
  · exact absurd h (by decide)
  · exact absurd (hsuf '*' h) (by decide)

/-- Full behaviour of the expander on a well-formed range
specification: the ascending expansion when `M > N`, the range-bound
error otherwise. -/
theorem parse_file_paths_rangeSpec (g : Str → List Str) (pre suf : Str)
    (N M : Nat) (hpre : ∀ c ∈ pre, outerClass c = true)
    (hsuf : ∀ c ∈ suf, outerClass c = true) :
    parse_file_paths g (rangeSpec pre suf N M) =
      if M > N then
        .ok ((List.range' N (M + 1 - N)).map
          (fun i => pre ++ natToChars i ++ suf))
      else .error .rangeBound := by
  have hstar := not_mem_rangeSpec_star pre suf N M hpre hsuf
  have hbr : '[' ∈ rangeSpec pre suf N M :=
    (mem_rangeSpec _ _ _ _ _).mpr (Or.inr (Or.inl rfl))
  have hcbr : ']' ∈ rangeSpec pre suf N M :=
    (mem_rangeSpec _ _ _ _ _).mpr (by tauto)
  have hpreB : ∀ c ∈ pre, (fun c => decide (c ≠ '[')) c = true := fun c hc => by
    simp only [decide_eq_true_eq]
    exact outerClass_ne c (hpre c hc) '[' rfl
  have hdw : (rangeSpec pre suf N M).dropWhile (fun c => c ≠ '[') =
      '[' :: (natToChars N ++ '-' :: (natToChars M ++ ']' :: suf)) :=
    dropWhile_append_stop _ pre '[' _ hpreB (by simp)
  have hgutsStop : ∀ c ∈ natToChars N ++ '-' :: natToChars M,
      (fun c => decide (c ≠ ']')) c = true := by
    intro c hc
    simp only [decide_eq_true_eq]
    rcases List.mem_append.mp hc with h | h
    · exact isDig_ne c (natToChars_isDig N c h) ']' (by decide)
    · rcases List.mem_cons.mp h with h | h
      · subst h; decide
      · exact isDig_ne c (natToChars_isDig M c h) ']' (by decide)
  have hguts : (natToChars N ++ '-' :: (natToChars M ++ ']' :: suf)).takeWhile
      (fun c => c ≠ ']') = natToChars N ++ '-' :: natToChars M := by
    have hre : natToChars N ++ '-' :: (natToChars M ++ ']' :: suf) =
        (natToChars N ++ '-' :: natToChars M) ++ ']' :: suf := by simp
    rw [hre]
    exact takeWhile_append_stop _ _ ']' suf hgutsStop (by simp)
  have hcomma : ¬ (natToChars N ++ '-' :: natToChars M).contains ',' = true := by
    rw [contains_iff]
    intro h
    rcases List.mem_append.mp h with h | h
    · exact absurd (natToChars_isDig N ',' h) (by decide)
    · rcases List.mem_cons.mp h with h | h
      · exact absurd h (by decide)
      · exact absurd (natToChars_isDig M ',' h) (by decide)
  have hdash : ('-' : Char) ∈ natToChars N ++ '-' :: natToChars M := by simp
  have hrepl : ∀ repl, replaceAll (rangeSpec pre suf N M) (rangeExpr N M)
      repl = pre ++ repl ++ suf := by
    intro repl
    rw [rangeSpec_assoc]
    exact replaceAll_single _ repl pre suf
      (fun h => absurd (hpre '[' h) (by decide))
      (fun h => absurd (hsuf '[' h) (by decide))
  rw [parse_file_paths]
  rw [if_neg (by
    rintro ⟨_, h2, _⟩
    exact h2 ((contains_iff _ '[').mpr hbr))]
  rw [if_neg (fun hc => hstar ((contains_iff _ '*').mp hc))]
  rw [if_pos ⟨(contains_iff _ '[').mpr hbr, (contains_iff _ ']').mpr hcbr⟩]
  simp only [hdw, List.drop_one, List.tail_cons]
  rw [if_neg (not_not_intro ((contains_iff _ ']').mpr (by simp)))]
  simp only [hguts]
  rw [if_neg hcomma, if_pos ((contains_iff _ '-').mpr hdash)]
  rw [rangeMatch_rangeSpec pre suf N M hpre hsuf]
  by_cases hMN : M > N
  · rw [if_pos hMN]
    simp only [hrepl]
    rw [if_neg (not_not_intro hMN)]
  · rw [if_neg hMN]
    simp only [if_pos hMN]

/-- The expander fails on any `*`-free spec that has a bracket
character but no `]` after its first `[`: with both brackets present
but crossed it reports crossed shoelaces, otherwise unbalanced
brackets. -/
theorem parse_file_paths_unbalanced (g : Str → List Str) (s : Str)
    (hstar : '*' ∉ s) (hbr : '[' ∈ s ∨ ']' ∈ s)
    (hnob : ']' ∉ (s.dropWhile (fun c => c ≠ '[')).drop 1) :
    parse_file_paths g s = .error .unbalancedBrackets ∨
    parse_file_paths g s = .error .crossedShoelaces := by
  by_cases hL : '[' ∈ s
  · by_cases hR : ']' ∈ s
    · right
      rw [parse_file_paths]
      rw [if_neg (by
        rintro ⟨_, h2, _⟩
        exact h2 ((contains_iff _ '[').mpr hL))]
      rw [if_neg (fun hc => hstar ((contains_iff _ '*').mp hc))]
      rw [if_pos ⟨(contains_iff _ '[').mpr hL, (contains_iff _ ']').mpr hR⟩]
      rw [if_pos (fun hc => hnob ((contains_iff _ ']').mp hc))]
    · left
      rw [parse_file_paths]
      rw [if_neg (by
        rintro ⟨_, h2, _⟩
        exact h2 ((contains_iff _ '[').mpr hL))]
      rw [if_neg (fun hc => hstar ((contains_iff _ '*').mp hc))]
      rw [if_neg (by
        rintro ⟨_, h2⟩
        exact hR ((contains_iff _ ']').mp h2))]
  · have hR : ']' ∈ s := hbr.resolve_left hL
    left
    rw [parse_file_paths]
    rw [if_neg (by
      rintro ⟨_, _, h3⟩
      exact h3 ((contains_iff _ ']').mpr hR))]
    rw [if_neg (fun hc => hstar ((contains_iff _ '*').mp hc))]
    rw [if_neg (by
      rintro ⟨h1, _⟩
      exact hL ((contains_iff _ '[').mp h1))]

/-- The existence loop succeeds when every path exists. -/
theorem checkExists_ok (fx : Str → Bool) (k : Str) (l : List Str)
    (h : ∀ p ∈ l, fx p = true) : checkExists fx k l = .ok () := by
  induction l with
  | nil => rfl
  | cons p rest ih =>
      have hp := h p (List.mem_cons_self p rest)
      simp only [checkExists, hp, if_true]
      exact ih fun q hq => h q (List.mem_cons_of_mem p hq)

/-- The single mapping record a bare-`dst` spec with a literal
relative path produces: source mirrored from the template root,
destination and working paths joined from the same relative path,
empty symlink/chmod/chown, translation on. -/
def c8Record (out wrk : Str) (tcs dcs : List Str) : Mapping :=
  { chmod := [], chown := [], dst_key := joinSlash dcs,
    full_dst := pyJoin out (joinSlash dcs), full_lnk := [],
    full_src := absOf (tcs ++ dcs), full_wrk := pyJoin wrk (joinSlash dcs),
    rel_dst := joinSlash dcs, rel_lnk := [], rel_src := joinSlash dcs,
    translate := true }

/-! ## A heap model of `merge_yaml_data` for the frame property

To state that `merge_yaml_data` does not mutate its arguments, Python
objects are modelled explicitly: a `Store` is the heap, an address is
an index into it, and container objects hold addresses of their
children.  `.copy()` allocates a fresh object at the end of the store;
`list.extend` and `d[k] = v` mutate an object in place via
`List.set`.  `mergeH` re-runs `utils.merge_yaml_data` in this model,
step for step: two strings return the second reference unchanged; two
lists allocate `data1.copy()`, allocate `data2.copy()`, and extend the
first copy in place; two dicts allocate `data1.copy()` and then run
the update loop against it, re-reading the accumulator object at each
assignment exactly as Python does; anything else returns the second
reference.  A dangling address yields `none` (a well-formed Python
heap never produces one), and structural fuel bounds the recursion
depth as Python's recursion limit does. -/

/-- A heap object: a scalar, or a container holding the addresses of
its children. -/
inductive HVal where
  | str (s : Str)
  | int (n : Int)
  | bool (b : Bool)
  | null
  | arr (elems : List Nat)
  | dict (entries : List (Str × Nat))
deriving DecidableEq, Repr

/-- The heap: object at address `i` is the `i`-th entry. -/
abbrev Store := List HVal

/-- Python `k in d` / `d[k]` on a heap dict's entry list. -/
def lookupA (entries : List (Str × Nat)) (k : Str) : Option Nat :=
  match entries with
  | [] => none
  | (k', v) :: rest => if k' = k then some v else lookupA rest k

/-- Python `d[k] = v` on a heap dict's entry list: replace in place or
append. -/
def setA (entries : List (Str × Nat)) (k : Str) (v : Nat) :
    List (Str × Nat) :=
  match entries with
  | [] => [(k, v)]
  | (k', v') :: rest =>
      if k' = k then (k', v) :: rest else (k', v') :: setA rest k v

/-- The `for key, val in data2.items()` loop of `merge_yaml_data` in
the heap model, updating the freshly allocated accumulator dict at
address `ard` in place; `mf` is the recursive merge at one more level
of depth. -/
def mergeEntriesH (mf : Store → Nat → Nat → Option (Store × Nat)) :
    Store → Nat → List (Str × Nat) → Option (Store × Nat)
  | st, ard, [] => some (st, ard)
  | st, ard, (k, v) :: rest =>
    match st[ard]? with
    | some (.dict cur) =>
      match lookupA cur k with
      | some old =>
        match mf st old v with
        | some (st1, r) =>
          match st1[ard]? with
          | some (.dict cur') =>
              mergeEntriesH mf (st1.set ard (.dict (setA cur' k r))) ard rest
          | _ => none
        | none => none
      | none => mergeEntriesH mf (st.set ard (.dict (setA cur k v))) ard rest
    | _ => none

/-- `utils.merge_yaml_data` over the explicit heap: takes the store
and the addresses of both arguments, returns the updated store and
the address of the result. -/
def mergeH : Nat → Store → Nat → Nat → Option (Store × Nat)
  | 0, _, _, _ => none
  | fuel + 1, st, a1, a2 =>
    match st[a1]?, st[a2]? with
    | some v1, some v2 =>
      match v1, v2 with
      | .str _, .str _ => some (st, a2)
      | .arr l1, .arr l2 =>
          some (((st ++ [HVal.arr l1]) ++ [HVal.arr l2]).set st.length
            (HVal.arr (l1 ++ l2)), st.length)
      | .dict e1, .dict e2 =>
          mergeEntriesH (mergeH fuel) (st ++ [HVal.dict e1]) st.length e2
      | _, _ => some (st, a2)
    | _, _ => none

/-- Dereference an address into a structural `Yaml` value, following
child addresses (with fuel, since an arbitrary store could be
cyclic). -/
def readVal : Nat → Store → Nat → Option Yaml
  | 0, _, _ => none
  | fuel + 1, st, a =>
    match st[a]? with
    | some (.str s) => some (.str s)
    | some (.int n) => some (.int n)
    | some (.bool b) => some (.bool b)
    | some .null => some .null
    | some (.arr l) => (l.mapM (readVal fuel st)).map Yaml.list
    | some (.dict e) =>
        (e.mapM (fun kv =>
          (readVal fuel st kv.2).map (fun y => (kv.1, y)))).map Yaml.dict
    | none => none

/-- The child addresses held by a heap object. -/
def addrsOf : HVal → List Nat
  | .arr l => l
  | .dict e => e.map (fun kv => kv.2)
  | _ => []

/-- A well-formed heap: every child address points inside the
store. -/
def Closed (st : Store) : Prop :=
  ∀ v ∈ st, ∀ a ∈ addrsOf v, a < st.length

instance (st : Store) : Decidable (Closed st) := by
  unfold Closed
  infer_instance

/-- Frame property of the dict-update loop: it only grows the store
and only mutates the accumulator address `ard`, provided the merge
function it calls has the frame property itself. -/
theorem mergeEntriesH_frame
    (mf : Store → Nat → Nat → Option (Store × Nat))
    (hmf : ∀ st a1 a2 out, mf st a1 a2 = some out →
      st.length ≤ out.1.length ∧
      ∀ i, i < st.length → out.1[i]? = st[i]?) :
    ∀ (e : List (Str × Nat)) (st : Store) (ard : Nat) (out : Store × Nat),
      mergeEntriesH mf st ard e = some out →
      st.length ≤ out.1.length ∧
      ∀ i, i < st.length → i ≠ ard → out.1[i]? = st[i]? := by
  intro e
  induction e with
  | nil =>
      intro st ard out h
      cases h
      exact ⟨Nat.le_refl _, fun i _ _ => rfl⟩
  | cons kv rest ih =>
      obtain ⟨k, v⟩ := kv
      intro st ard out h
      rw [mergeEntriesH] at h
      split at h
      · rename_i cur hard
        split at h
        · rename_i old hlook
          split at h
          · rename_i st1 r hmg
            split at h
            · rename_i cur2 hc2
              have hlen1 : st.length ≤ st1.length :=
                (hmf st old v (st1, r) hmg).1
              have hag1 : ∀ i, i < st.length → st1[i]? = st[i]? :=
                (hmf st old v (st1, r) hmg).2
              obtain ⟨hlen2, hag2⟩ := ih _ ard out h
              constructor
              · rw [List.length_set] at hlen2
                omega
              · intro i hi hne
                rw [hag2 i (by rw [List.length_set]; omega) hne,
                  List.getElem?_set_ne (fun hEq => hne hEq.symm),
                  hag1 i hi]
            · exact Option.noConfusion h
          · exact Option.noConfusion h
        · rename_i hlook
          obtain ⟨hlen2, hag2⟩ := ih _ ard out h
          constructor
          · rw [List.length_set] at hlen2
            omega
          · intro i hi hne
            rw [hag2 i (by rw [List.length_set]; omega) hne,
              List.getElem?_set_ne (fun hEq => hne hEq.symm)]
      · exact Option.noConfusion h

/-- Frame property of the heap merge: `mergeH` only allocates — every
address that existed before the call still holds the same object
afterwards. -/
theorem mergeH_frame : ∀ (fuel : Nat) (st : Store) (a1 a2 : Nat)
    (out : Store × Nat), mergeH fuel st a1 a2 = some out →
    st.length ≤ out.1.length ∧ ∀ i, i < st.length → out.1[i]? = st[i]? := by
  intro fuel
  induction fuel with
  | zero => intro st a1 a2 out h; simp [mergeH] at h
  | succ f ih =>
      intro st a1 a2 out h
      rw [mergeH] at h
      split at h
      · split at h
        · cases h
          exact ⟨Nat.le_refl _, fun i _ => rfl⟩
        · rename_i l1 l2
          cases h
          constructor
          · simp
          · intro i hi
            rw [List.getElem?_set_ne (by simp; omega),
              List.append_assoc,
              List.getElem?_append_left hi]
        · rename_i e1 e2 hx1 hx2
          obtain ⟨hlen', hag'⟩ :=
            mergeEntriesH_frame (mergeH f) ih e2
              (st ++ [HVal.dict e1]) st.length out h
          constructor
          · simp at hlen'
            omega
          · intro i hi
            rw [hag' i (by simp; omega) (by omega),
              List.getElem?_append_left hi]
        · cases h
          exact ⟨Nat.le_refl _, fun i _ => rfl⟩
      · exact Option.noConfusion h

theorem mapM_option_congr {α β : Type} (f g : α → Option β) :
    ∀ (l : List α), (∀ x ∈ l, f x = g x) → l.mapM f = l.mapM g := by
  intro l
  induction l with
  | nil => intro _; rfl
  | cons x xs ih =>
      intro h
      rw [List.mapM_cons, List.mapM_cons, h x (by simp),
        ih (fun y hy => h y (by simp [hy]))]

/-- Dereferencing below the old store length yields the same
structural value in any store that agrees there. -/
theorem readVal_agree (g : Nat) : ∀ (st st' : Store) (a : Nat),
    Closed st → st.length ≤ st'.length →
    (∀ i, i < st.length → st'[i]? = st[i]?) → a < st.length →
    readVal g st' a = readVal g st a := by
  induction g with
  | zero => intros; rfl
  | succ f ih =>
      intro st st' a hcl hlen hag ha
      rw [readVal, readVal, hag a ha]
      cases hv : st[a]? with
      | none => rfl
      | some v =>
          cases v with
          | str s => rfl
          | int n => rfl
          | bool b => rfl
          | null => rfl
          | arr l =>
              show (l.mapM (readVal f st')).map Yaml.list =
                (l.mapM (readVal f st)).map Yaml.list
              rw [mapM_option_congr (readVal f st') (readVal f st) l
                (fun x hx => ih st st' x hcl hlen hag
                  (hcl _ (List.getElem?_mem hv) x hx))]
          | dict e =>
              show (e.mapM (fun kv =>
                  (readVal f st' kv.2).map (fun y => (kv.1, y)))).map
                    Yaml.dict =
                (e.mapM (fun kv =>
                  (readVal f st kv.2).map (fun y => (kv.1, y)))).map
                    Yaml.dict
              rw [mapM_option_congr _ _ e (fun kv hkv => by
                rw [ih st st' kv.2 hcl hlen hag
                  (hcl _ (List.getElem?_mem hv) kv.2
                    (List.mem_map_of_mem (fun kv => kv.2) hkv))])]

/-- The C10 witness heap: address 2 holds `{a: [1]}` (children at
addresses 1 and 0), address 5 holds `{a: [2]}` (children at 4 and
3). -/
def c10Store : Store :=
  [.int 1, .arr [0], .dict [("a".toList, 1)], .int 2, .arr [3],
   .dict [("a".toList, 4)]]

/-- The heap after `mergeH 3 c10Store 2 5`: three fresh objects were
allocated (the merged dict at 6, the extended list copy at 7, the
discarded `data2.copy()` at 8) and the original six addresses are
untouched. -/
def c10Merged : Store :=
  [.int 1, .arr [0], .dict [("a".toList, 1)], .int 2, .arr [3],
   .dict [("a".toList, 4)], .dict [("a".toList, 7)], .arr [0, 3],
   .arr [3]]

/-! ## Key preservation through the include loader -/

/-- A document is a dictionary containing the key `k`. -/
def yamlHasKey (d : Yaml) (k : Str) : Bool :=
  match d with
  | .dict e => containsKey e k
  | _ => false

/-- `setEntry` (the dict-update step of the merge and of the metadata
write) never removes a key already present. -/
theorem setEntry_preserves_key (e : List (Str × Yaml)) (k k' : Str)
    (v : Yaml) (h : containsKey e k = true) :
    containsKey (setEntry e k' v) k = true := by
  induction e with
  | nil => simp [containsKey] at h
  | cons kv rest ih =>
      obtain ⟨k0, v0⟩ := kv
      rw [setEntry]
      by_cases h0 : k0 = k'
      · rw [if_pos h0]
        simp only [containsKey, List.any_cons] at h ⊢
        exact h
      · rw [if_neg h0]
        simp only [containsKey, List.any_cons] at h ⊢
        rcases Bool.or_eq_true_iff.mp h with h1 | h1
        · exact Bool.or_eq_true_iff.mpr (Or.inl h1)
        · exact Bool.or_eq_true_iff.mpr (Or.inr (ih h1))

/-- Appending a fresh entry keeps every key of the original dict. -/
theorem containsKey_append_left (e : List (Str × Yaml)) (x : Str × Yaml)
    (k : Str) (h : containsKey e k = true) :
    containsKey (e ++ [x]) k = true := by
  simp only [containsKey, List.any_append]
  simp only [containsKey] at h
  exact Bool.or_eq_true_iff.mpr (Or.inl h)

/-- The dict-merge loop of `merge_yaml_data` only updates or appends
entries, so every key of the first argument survives the merge. -/
theorem mergeEntries_preserves_key (k : Str) :
    ∀ (e2 acc : List (Str × Yaml)), containsKey acc k = true →
    containsKey (mergeEntries acc e2) k = true := by
  intro e2
  induction e2 with
  | nil => intro acc h; exact h
  | cons kv rest ih =>
      obtain ⟨k', v⟩ := kv
      intro acc h
      rw [mergeEntries]
      cases hl : lookupEntry acc k' with
      | some old =>
          exact ih _ (setEntry_preserves_key acc k k' _ h)
      | none =>
          exact ih _ (containsKey_append_left acc (k', v) k h)

/-- Every document `parse` returns successfully is a dictionary. -/
theorem parse_ok_dict (ctx : Ctx) (fs : Str → Option Yaml) :
    ∀ (fuel : Nat) (path : Str) (d : Yaml),
      parse ctx fs fuel path = .ok d → ∃ e, d = .dict e := by
  intro fuel
  cases fuel with
  | zero => intro path d h; exact Except.noConfusion h
  | succ f =>
      intro path d h
      rw [parse] at h
      split at h
      · exact Except.noConfusion h
      · split at h
        · cases h
          exact ⟨_, rfl⟩
        · split at h
          · dsimp only [] at h
            split at h
            · exact Except.noConfusion h
            · split at h
              · exact Except.noConfusion h
              · cases h
                exact ⟨_, rfl⟩
              · exact Except.noConfusion h
          · exact Except.noConfusion h
      · exact Except.noConfusion h

/-- The include-merge loop preserves every key of the accumulating
document, provided the recursive call only returns dictionaries. -/
theorem parseIncludes_preserves_key (k : Str)
    (pf : Str → Except CErr Yaml)
    (hpf : ∀ i d, pf i = .ok d → ∃ e, d = .dict e) :
    ∀ (incs : List Str) (e : List (Str × Yaml)) (out : Yaml),
      containsKey e k = true →
      parseIncludes pf (.dict e) incs = .ok out →
      ∃ e2, out = .dict e2 ∧ containsKey e2 k = true := by
  intro incs
  induction incs with
  | nil =>
      intro e out h hok
      cases hok
      exact ⟨e, rfl, h⟩
  | cons i rest ih =>
      intro e out h hok
      rw [parseIncludes] at hok
      split at hok
      · exact Except.noConfusion hok
      · rename_i idata hpi
        obtain ⟨ei, rfl⟩ := hpf i idata hpi
        exact ih (mergeEntries e ei) out (mergeEntries_preserves_key k ei e h) hok

/-! ## Concrete scenario data used by the claim theorems -/

/-- A glob function returning no matches (no claim scenario touches
the glob branch). -/
def glob0 : Str → List Str := fun _ => []

/-- A standard context: template root `/tmp/src`, working directory
`/`, home `/root`, empty glob, every path existing — the roots used
throughout the repository's own test-suite. -/
def ctxStd : Ctx :=
  { template_dir := "/tmp/src".toList, cwd := "/".toList,
    home := "/root".toList, globfn := glob0, fexists := fun _ => true }

/-- The root document of the spec's §8 include scenario:
`{include: ["base.yaml"], x: 2, y: 3}`. -/
def c1RootEntries : List (Str × Yaml) :=
  [("include".toList, .list [.str "base.yaml".toList]),
   ("x".toList, .int 2), ("y".toList, .int 3)]

/-- The document `config.parse` actually returns for the include
scenario: the included `base.yaml` value `x: 1` has overwritten the
root's `x: 2` (the included document is the second, conflict-winning
merge argument), the `include` key survives, and the canonical source
path is appended. -/
def c1MergedEntries : List (Str × Yaml) :=
  [("include".toList, .list [.str "base.yaml".toList]),
   ("x".toList, .int 1), ("y".toList, .int 3),
   ("template_configuration_file".toList, .str "/tmp/conf.yaml".toList)]

/-- The include-scenario filesystem: `/tmp/conf.yaml` holds the root
document, `/tmp/base.yaml` holds `{x: 1}`, and every other path is
supplied by `rest`. -/
def c1Fs (rest : Str → Option Yaml) : Str → Option Yaml := fun p =>
  if p = "/tmp/conf.yaml".toList then some (.dict c1RootEntries)
  else if p = "/tmp/base.yaml".toList then some (.dict [("x".toList, .int 1)])
  else rest p

/-- A `files` entry carrying `dst`, `src` and `symlink`, with `src`
naming a single existing file — the shape of claim C3. -/
def specC3 : FileSpec :=
  { dst := "foo.txt".toList, src := some "foo.template".toList,
    symlink := some "/usr/local/bin/foo".toList }

/-- A one-key no-`include` document `{lib: ["foo.py"]}` at
`/tmp/solo.yaml`, for the C4 witness. -/
def soloEntries : List (Str × Yaml) :=
  [("lib".toList, .list [.str "foo.py".toList])]

/-- Filesystem holding only the C4 witness document. -/
def soloFs : Str → Option Yaml := fun p =>
  if p = "/tmp/solo.yaml".toList then some (.dict soloEntries) else none

end Tmpl

namespace Tmpl

/-- C1 (counterexample): in the include scenario — root document
`{include: ["base.yaml"], x: 2, y: 3}` at `/tmp/conf.yaml`,
`base.yaml` parsing to `{x: 1}` — `parse` returns a document whose
`x` binding is `1`, not the claimed `2`: the included document, not
the including one, wins conflicts. -/
theorem c1_counterexample :
    parse ctxStd (c1Fs (fun _ => none)) 2 "/tmp/conf.yaml".toList =
      .ok (.dict c1MergedEntries) ∧
    lookupEntry c1MergedEntries "x".toList = some (.int 1) ∧
    Yaml.int 1 ≠ Yaml.int 2 :=
  ⟨rfl, rfl, by simp⟩

/-- C1 (amended): for every root configuration document at
`/tmp/conf.yaml` declaring `include: ["base.yaml"]` and `{x:2, y:3}`,
where `base.yaml` parses to `{x:1}`, the recursive loader returns the
merged document with the *included* document winning conflicts:
`{include: ["base.yaml"], x: 1, y: 3}` plus the
`template_configuration_file` metadata key — the `include` entry is
resolved and merged, but values coming from included documents
override the including document. -/
theorem c1_included_document_wins (ctx : Ctx) (rest : Str → Option Yaml)
    (k : Nat) :
    parse ctx (c1Fs rest) (k + 2) "/tmp/conf.yaml".toList =
      .ok (.dict c1MergedEntries) := rfl

/-- C2 (counterexample): in the include scenario the document
returned by `parse` still contains the `include` key — the key is not
consumed by merge resolution. -/
theorem c2_counterexample :
    parse ctxStd (c1Fs (fun _ => none)) 2 "/tmp/conf.yaml".toList =
      .ok (.dict c1MergedEntries) ∧
    containsKey c1MergedEntries "include".toList = true :=
  ⟨rfl, rfl⟩

/-- C2 (amended): for *every* configuration whose root document
declares an `include` key — any context, filesystem, recursion bound,
path and entry list — whenever the recursive loader `parse` succeeds,
the document it returns *retains* the `include` key: `config.parse`
never deletes it (merge resolution only updates or appends entries),
so the key is part of the document handed to validation and rendering
(where it is ignored as an ordinary pass-through context key). -/
theorem c2_include_key_survives (ctx : Ctx) (fs : Str → Option Yaml)
    (fuel : Nat) (path : Str) (entries : List (Str × Yaml)) (d : Yaml)
    (hfs : fs path = some (.dict entries))
    (hinc : containsKey entries "include".toList = true)
    (hok : parse ctx fs fuel path = .ok d) :
    yamlHasKey d "include".toList = true := by
  cases fuel with
  | zero => exact Except.noConfusion hok
  | succ f =>
      rw [parse] at hok
      split at hok
      · exact Except.noConfusion hok
      · rename_i entries' hfs'
        rw [hfs] at hfs'
        injection hfs' with hfs''
        injection hfs'' with hfs'''
        subst hfs'''
        split at hok
        · cases hok
          exact hinc
        · split at hok
          · dsimp only [] at hok
            split at hok
            · exact Except.noConfusion hok
            · rename_i incPaths hmap
              split at hok
              · exact Except.noConfusion hok
              · rename_i merged hpi
                cases hok
                obtain ⟨e2, he2, hck⟩ :=
                  parseIncludes_preserves_key "include".toList
                    (parse ctx fs f) (fun i d => parse_ok_dict ctx fs f i d)
                    incPaths entries (.dict merged) hinc hpi
                injection he2 with he2'
                subst he2'
                exact setEntry_preserves_key merged "include".toList
                  "template_configuration_file".toList _ hck
              · exact Except.noConfusion hok
          · exact Except.noConfusion hok
      · exact Except.noConfusion hok

/-- C2 witness: the theorem applied to the §8 include scenario — the
merged document still contains `include`. -/
theorem c2_witness :
    yamlHasKey (.dict c1MergedEntries) "include".toList = true :=
  c2_include_key_survives ctxStd (c1Fs (fun _ => none)) 2
    "/tmp/conf.yaml".toList c1RootEntries (.dict c1MergedEntries)
    rfl rfl rfl

/-- C3 (code evaluated at the failing input): a `FileSpec` with both
`src` (expanding to the single existing file `/tmp/src/foo.template`)
and `symlink` makes `compute_mapping` fail with an unbound-local
error instead of producing the claimed single mapping with a
non-empty `full_lnk`: in the `src` branch of
`config.compute_mapping`, the assignments to
`spec_full_lnk`/`spec_rel_lnk` sit after the `raise` statement and
are unreachable, so the record build reads a never-assigned local. -/
theorem c3_src_symlink_unbound_local :
    compute_mapping ctxStd [specC3] "/tmp/dst".toList "/tmp/wrk".toList =
      .error .unboundLocal := rfl

/-- C4 (code evaluated at the failing inputs): a configuration file
that exists, parses to a mapping and declares no `include` key is
returned by `parse` completely verbatim — no
`template_configuration_file` metadata key is recorded (the function
returns before the line that sets it), contradicting the claim; the
`lib` resolver `get_lib_paths` then fails on such documents because
it reads that key unconditionally. -/
theorem c4_no_include_returns_verbatim (ctx : Ctx)
    (fs : Str → Option Yaml) (fuel : Nat) (path : Str)
    (entries : List (Str × Yaml))
    (hfs : fs path = some (.dict entries))
    (hinc : lookupEntry entries "include".toList = none) :
    parse ctx fs (fuel + 1) path = .ok (.dict entries) := by
  simp only [parse, hfs, hinc]

/-- C4 witness: the no-`include` document `{lib: ["foo.py"]}` at
`/tmp/solo.yaml` is returned verbatim — in particular without any
`template_configuration_file` key. -/
theorem c4_witness :
    parse ctxStd soloFs (0 + 1) "/tmp/solo.yaml".toList =
      .ok (.dict soloEntries) ∧
    containsKey soloEntries "template_configuration_file".toList = false :=
  ⟨c4_no_include_returns_verbatim ctxStd soloFs 0 "/tmp/solo.yaml".toList
    soloEntries rfl rfl, rfl⟩

/-- C5: deep-merge of two one-key mappings satisfies the three stated
equations: `merge {a:1} {a:2} = {a:2}` (right-biased on scalars),
`merge {a:[1]} {a:[2]} = {a:[1,2]}` (sequence concatenation, left then
right), and `merge {a:{b:1}} {a:{c:2}} = {a:{b:1, c:2}}` (recursive
key-by-key merge of nested mappings). -/
theorem c5_merge_equations :
    merge_yaml_data (.dict [("a".toList, .int 1)])
        (.dict [("a".toList, .int 2)])
      = .dict [("a".toList, .int 2)] ∧
    merge_yaml_data (.dict [("a".toList, .list [.int 1])])
        (.dict [("a".toList, .list [.int 2])])
      = .dict [("a".toList, .list [.int 1, .int 2])] ∧
    merge_yaml_data (.dict [("a".toList, .dict [("b".toList, .int 1)])])
        (.dict [("a".toList, .dict [("c".toList, .int 2)])])
      = .dict [("a".toList,
          .dict [("b".toList, .int 1), ("c".toList, .int 2)])] := by
  refine ⟨rfl, rfl, rfl⟩

/-- C6 (counterexample): the claim restricts prefix and suffix only to
be free of `*`, `[`, `]`; but for the range spec `,[1-2]` — prefix
`,`, `N = 1 < 2 = M` — `expand` raises (the comma falls outside
`RANGE_REGEX`'s character class, so the regex does not match) instead
of returning the two claimed paths `,1` and `,2`. -/
theorem c6_counterexample :
    parse_file_paths glob0 ",[1-2]".toList = .error .invalidRange ∧
    Except.error PErr.invalidRange ≠
      (.ok [",1".toList, ",2".toList] : Except PErr (List Str)) :=
  ⟨rfl, by simp⟩

/-- C6 (amended): for every range path spec `prefix[N-M]suffix` whose
prefix and suffix consist of characters of the regex class
`[/\w.\- ]` (ASCII word characters, slash, dot, hyphen, space — a
class that in particular contains none of `*`, `[`, `]`), with
`M > N`, `expand` returns exactly `M - N + 1` paths, namely
`prefix{i}suffix` for each integer `i` from `N` to `M` inclusive, in
ascending order of `i`. -/
theorem c6_range_expansion (g : Str → List Str) (pre suf : Str)
    (N M : Nat) (hpre : ∀ c ∈ pre, outerClass c = true)
    (hsuf : ∀ c ∈ suf, outerClass c = true) (hNM : N < M) :
    parse_file_paths g (rangeSpec pre suf N M) =
      .ok ((List.range' N (M - N + 1)).map
        (fun i => pre ++ natToChars i ++ suf)) ∧
    ((List.range' N (M - N + 1)).map
      (fun i => pre ++ natToChars i ++ suf)).length = M - N + 1 := by
  constructor
  · rw [parse_file_paths_rangeSpec g pre suf N M hpre hsuf, if_pos hNM,
      show M + 1 - N = M - N + 1 by omega]
  · simp [List.length_range']

/-- C6 witness: `a[1-3].t` expands to `a1.t`, `a2.t`, `a3.t`. -/
theorem c6_witness :
    parse_file_paths glob0 (rangeSpec "a".toList ".t".toList 1 3) =
      .ok ((List.range' 1 (3 - 1 + 1)).map
        (fun i => "a".toList ++ natToChars i ++ ".t".toList)) ∧
    ((List.range' 1 (3 - 1 + 1)).map
      (fun i => "a".toList ++ natToChars i ++ ".t".toList)).length =
      3 - 1 + 1 :=
  c6_range_expansion glob0 "a".toList ".t".toList 1 3 (by decide)
    (by decide) (by decide)

/-- C7: `expand` fails rather than returning paths in the
malformed-bracket cases.  First conjunct: every well-formed range
spec `prefix[N-M]suffix` (prefix/suffix over the regex class) with
`M ≤ N` fails with the range error ("upperbound … is not greater than
the lowerbound").  Second conjunct: every `*`-free spec containing a
bracket character without a matching balanced pair — no `]` anywhere
after its first `[` — fails with a bracket syntax error ("does not
have balanced brackets", or "shoelaces crossed" when both brackets
occur but only in the wrong order). -/
theorem c7_malformed_failures :
    (∀ (g : Str → List Str) (pre suf : Str) (N M : Nat),
      (∀ c ∈ pre, outerClass c = true) →
      (∀ c ∈ suf, outerClass c = true) → M ≤ N →
      parse_file_paths g (rangeSpec pre suf N M) = .error .rangeBound) ∧
    (∀ (g : Str → List Str) (s : Str), '*' ∉ s → ('[' ∈ s ∨ ']' ∈ s) →
      ']' ∉ (s.dropWhile (fun c => c ≠ '[')).drop 1 →
      parse_file_paths g s = .error .unbalancedBrackets ∨
      parse_file_paths g s = .error .crossedShoelaces) := by
  constructor
  · intro g pre suf N M hpre hsuf hMN
    rw [parse_file_paths_rangeSpec g pre suf N M hpre hsuf,
      if_neg (by omega)]
  · exact parse_file_paths_unbalanced

/-- C7 witness: `a[3-1].t` fails with the range error; `a[1` fails
with a bracket syntax error. -/
theorem c7_witness :
    parse_file_paths glob0 (rangeSpec "a".toList ".t".toList 3 1) =
      .error .rangeBound ∧
    (parse_file_paths glob0 "a[1".toList = .error .unbalancedBrackets ∨
      parse_file_paths glob0 "a[1".toList = .error .crossedShoelaces) :=
  ⟨c7_malformed_failures.1 glob0 "a".toList ".t".toList 3 1 (by decide)
      (by decide) (by decide),
    c7_malformed_failures.2 glob0 "a[1".toList (by decide) (by decide)
      (by decide)⟩

/-- C8: for every `FileSpec` consisting of a bare `dst` whose value is
a literal relative path (given by its well-formed components `dcs`,
free of `*`, `[`, `]` and not `~`-prefixed) naming an existing file
under the template root `absOf tcs`, `compute_mapping` yields exactly
one mapping record whose `rel_src` and `rel_dst` both equal `dst` and
whose `translate` field is `true` (the default when the spec omits
`translate`). -/
theorem c8_bare_dst_single_mapping (ctx : Ctx) (out wrk : Str)
    (tcs dcs : List Str)
    (hctx : ctx.template_dir = absOf tcs)
    (ht : ∀ c ∈ tcs, GoodComp c) (hd : ∀ c ∈ dcs, GoodComp c)
    (hdne : dcs ≠ [])
    (hlit : ∀ c ∈ tcs ++ dcs, '*' ∉ c ∧ '[' ∉ c ∧ ']' ∉ c)
    (htilde : (joinSlash dcs).head? ≠ some '~')
    (hex : ctx.fexists (absOf (tcs ++ dcs)) = true) :
    compute_mapping ctx [{ dst := joinSlash dcs }] out wrk =
      .ok [c8Record out wrk tcs dcs] ∧
    (c8Record out wrk tcs dcs).rel_src = joinSlash dcs ∧
    (c8Record out wrk tcs dcs).rel_dst = joinSlash dcs ∧
    (c8Record out wrk tcs dcs).translate = true := by
  have htc : ∀ c ∈ tcs, c ≠ [] ∧ '/' ∉ c :=
    fun c hc => ⟨(ht c hc).1, (ht c hc).2.1⟩
  have hdc : ∀ c ∈ dcs, c ≠ [] ∧ '/' ∉ c :=
    fun c hc => ⟨(hd c hc).1, (hd c hc).2.1⟩
  have hall : ∀ c ∈ tcs ++ dcs, GoodComp c := by
    intro c hc
    rcases List.mem_append.mp hc with h | h
    exacts [ht c h, hd c h]
  have hpath : get_path ctx (joinSlash dcs) [] = absOf (tcs ++ dcs) := by
    rw [get_path_relative ctx dcs hd hdne htilde, hctx,
      pyJoin_absOf tcs dcs htc hdc hdne, normpath_absOf _ hall]
  have hexp : parse_file_paths ctx.globfn (get_path ctx (joinSlash dcs) []) =
      .ok [absOf (tcs ++ dcs)] := by
    rw [hpath]
    exact parse_file_paths_literal _ _
      (not_mem_absOf '*' _ (by decide) (fun c hc => (hlit c hc).1))
      (not_mem_absOf '[' _ (by decide) (fun c hc => (hlit c hc).2.1))
      (not_mem_absOf ']' _ (by decide) (fun c hc => (hlit c hc).2.2))
  have hrel : relpath ctx.cwd (absOf (tcs ++ dcs)) ctx.template_dir =
      joinSlash dcs := by
    rw [hctx]
    exact relpath_absOf ctx.cwd tcs dcs ht hd hdne
  refine ⟨?_, rfl, rfl, rfl⟩
  simp only [compute_mapping, computeLoop, computeSpec, hexp, List.map,
    hrel, checkExists, hex, if_true, zipRecords, c8Record]
  simp

/-- C8 witness: `dst = "foo.txt"` under template root `/tmp/src`
(components `["tmp","src"]`), with output `/tmp/dst` and working
`/tmp/wrk`. -/
theorem c8_witness :
    compute_mapping ctxStd [{ dst := joinSlash ["foo.txt".toList] }]
        "/tmp/dst".toList "/tmp/wrk".toList =
      .ok [c8Record "/tmp/dst".toList "/tmp/wrk".toList
        ["tmp".toList, "src".toList] ["foo.txt".toList]] ∧
    (c8Record "/tmp/dst".toList "/tmp/wrk".toList
      ["tmp".toList, "src".toList] ["foo.txt".toList]).rel_src =
      joinSlash ["foo.txt".toList] ∧
    (c8Record "/tmp/dst".toList "/tmp/wrk".toList
      ["tmp".toList, "src".toList] ["foo.txt".toList]).rel_dst =
      joinSlash ["foo.txt".toList] ∧
    (c8Record "/tmp/dst".toList "/tmp/wrk".toList
      ["tmp".toList, "src".toList] ["foo.txt".toList]).translate = true :=
  c8_bare_dst_single_mapping ctxStd "/tmp/dst".toList "/tmp/wrk".toList
    ["tmp".toList, "src".toList] ["foo.txt".toList] rfl (by decide)
    (by decide) (by decide) (by decide) (by decide) rfl

/-- C9: for every `FileSpec` that specifies both `src` and `symlink`,
where `src` expands to more than one path, each naming an existing
file, `compute_mapping` fails with an error instead of returning any
mapping records (regardless of how the destination spec expands). -/
theorem c9_symlink_multi_src_rejected (ctx : Ctx) (out wrk : Str)
    (spec : FileSpec) (s l : Str) (srcs : List Str)
    (hsrc : spec.src = some s)
    (hlnk : spec.symlink = some l)
    (hexp : parse_file_paths ctx.globfn (get_path ctx s []) = .ok srcs)
    (hlen : 1 < srcs.length)
    (hex : ∀ p ∈ srcs, ctx.fexists p = true) :
    (compute_mapping ctx [spec] out wrk).isOk = false := by
  have hne : srcs ≠ [] := by
    intro h
    subst h
    simp at hlen
  have hck := checkExists_ok ctx.fexists spec.dst srcs hex
  simp only [compute_mapping, computeLoop, computeSpec, hsrc, hexp, hne,
    if_false, hck]
  cases h2 : parse_file_paths ctx.globfn (get_path ctx spec.dst out) with
  | error e => rfl
  | ok dsts =>
      match dsts with
      | [] => rfl
      | [d] =>
          simp only [hlnk, List.length_singleton]
          have hgt : ¬ (1 : Nat) > 1 := by omega
          simp only [hgt, if_false]
          simp only [hlen, if_true]
          rfl
      | d1 :: d2 :: rest => simp [Except.isOk, Except.toBool]

/-- C9 witness: `src = "foo[1-2].template"` expands to two existing
files under `/tmp/src`, and `symlink` is present. -/
theorem c9_witness :
    (compute_mapping ctxStd
      [{ dst := "foo.txt".toList, src := some "foo[1-2].template".toList,
         symlink := some "/usr/local/bin/foo".toList }]
      "/tmp/dst".toList "/tmp/wrk".toList).isOk = false :=
  c9_symlink_multi_src_rejected ctxStd "/tmp/dst".toList "/tmp/wrk".toList
    _ "foo[1-2].template".toList "/usr/local/bin/foo".toList
    ["/tmp/src/foo1.template".toList, "/tmp/src/foo2.template".toList]
    rfl rfl rfl (by decide) (by decide)

/-- C10: `merge_yaml_data` is non-destructive.  In the heap model,
for every well-formed store and argument addresses `d1`, `d2`, a
successful merge produces a store that agrees with the old one on
every pre-existing address (the frame property proved in
`mergeH_frame`), so both arguments dereference to exactly the same
structural value before and after the call: the result is built from
copies and neither argument's mappings or sequences are mutated. -/
theorem c10_merge_nondestructive (fuel g : Nat) (st : Store)
    (d1 d2 : Nat) (st' : Store) (r : Nat) (hcl : Closed st)
    (h1 : d1 < st.length) (h2 : d2 < st.length)
    (hm : mergeH fuel st d1 d2 = some (st', r)) :
    readVal g st' d1 = readVal g st d1 ∧
    readVal g st' d2 = readVal g st d2 := by
  have hframe := mergeH_frame fuel st d1 d2 (st', r) hm
  exact ⟨readVal_agree g st st' d1 hcl hframe.1 hframe.2 h1,
    readVal_agree g st st' d2 hcl hframe.1 hframe.2 h2⟩

/-- C10 witness: merging `{a: [1]}` (address 2) with `{a: [2]}`
(address 5) in the concrete heap leaves both arguments dereferencing
to their original values. -/
theorem c10_witness :
    readVal 5 c10Merged 2 = readVal 5 c10Store 2 ∧
    readVal 5 c10Merged 5 = readVal 5 c10Store 5 :=
  c10_merge_nondestructive 3 5 c10Store 2 5 c10Merged 6 (by decide)
    (by decide) (by decide) rfl

end Tmpl
